import Mathlib

/-!
# Verification of the flit audio generator (`scripts/generate_audio.py`)

Shallow embedding of the deterministic procedural-audio synthesis engine.

Modelling conventions:
* Sample buffers are `List ℚ`; the script's IEEE-754 double arithmetic is
  modelled by exact rational arithmetic.  The constant `math.pi` used by the
  script is the concrete double value `piFloat` below.
* Transcendental library calls (`math.sin`, `math.exp`) and the seeded
  Mersenne-Twister stream of Python's `random.Random(seed).uniform(-1, 1)`
  are external library functions, not code of this repository; they are
  passed in as explicit function parameters (`sinQ`, `expQ`, `mt`).  Every
  claim settled here is independent of their concrete values.
* Python operations that can raise (`max()` over an empty sequence, list
  indexing out of range) are embedded in `Option`, `none` standing for the
  raised exception.
* Claims stated over exact real arithmetic (phase-wrap equivalence, the
  MIDI-note pitch law) are embedded over `ℝ` with `Real.sin` / `Real.pi` /
  real powers.
-/

namespace FlitAudio

/-- `SAMPLE_RATE = 44100` from the script. -/
def SAMPLE_RATE : ℚ := 44100

/-- Python `int()` applied to an exact rational value: truncation toward zero. -/
def pyInt (q : ℚ) : ℤ := if q < 0 then ⌈q⌉ else ⌊q⌋

/-- `int()` truncation used as a length / repetition count: Python's
`range(n)` and `[x]*n` treat a negative `n` as `0`. -/
def pyNat (q : ℚ) : ℕ := (pyInt q).toNat

/-- The exact rational value of the IEEE-754 double `math.pi`
(`3.141592653589793115997963…`), the value the script's float arithmetic
actually uses. -/
def piFloat : ℚ := 884279719003555 / 281474976710656

/-- Resolve a Python list index of a list of length `n`: nonnegative indices
are used directly, negative ones wrap from the end, anything else raises
`IndexError` (`none`). -/
def pyIdx (n : ℕ) (idx : ℤ) : Option ℕ :=
  if 0 ≤ idx ∧ idx < (n : ℤ) then some idx.toNat
  else if -(n : ℤ) ≤ idx ∧ idx < 0 then some (idx + n).toNat
  else none

/-- Python `l[idx]` read. -/
def pyGet (l : List ℚ) (idx : ℤ) : Option ℚ :=
  (pyIdx l.length idx).map fun j => l.getD j 0

/-- Python `l[idx] = v` write. -/
def pySet (l : List ℚ) (idx : ℤ) (v : ℚ) : Option (List ℚ) :=
  (pyIdx l.length idx).map fun j => l.set j v

/-- `for i, s in enumerate(l): out.append(f i s)` starting at index `i0`. -/
def enumMap (f : ℕ → ℚ → ℚ) : ℕ → List ℚ → List ℚ
  | _, [] => []
  | i, s :: rest => f i s :: enumMap f (i + 1) rest

/-- Process-ambient state a Python run could in principle consult (wall
clock, OS entropy).  `white_noise` is shown never to depend on it. -/
structure Runtime where
  time : ℕ
  entropy : ℕ → ℚ

/-- `white_noise(n_samples, seed=42)` from the script:
`rng = random.Random(seed); [rng.uniform(-1.0, 1.0) for _ in range(n_samples)]`.
`mt seed i` is the `i`-th `uniform(-1.0, 1.0)` draw of Python's seeded
Mersenne Twister `random.Random(seed)` — a fixed deterministic function of
the seed per the `random` module's documentation. -/
def white_noise (mt : ℤ → ℕ → ℚ) (n_samples : ℕ) (seed : ℤ) : List ℚ :=
  (List.range n_samples).map fun i => mt seed i

/-- `white_noise` as executed inside a process whose ambient state is `rt`:
the body consults only the seeded generator, never `rt`. -/
def white_noise_run (rt : Runtime) (mt : ℤ → ℕ → ℚ) (n_samples : ℕ) (seed : ℤ) :
    List ℚ :=
  white_noise mt n_samples seed

/-- The recurrence loop of `lowpass_filter`: `y = prev + alpha*(s - prev)`. -/
def lpGo (alpha : ℚ) : List ℚ → ℚ → List ℚ
  | [], _ => []
  | s :: rest, prev =>
    let y := prev + alpha * (s - prev)
    y :: lpGo alpha rest y

/-- `lowpass_filter(samples, cutoff_hz, resonance=0.5)` (the `resonance`
parameter is accepted and unused, as in the source). -/
def lowpass_filter (samples : List ℚ) (cutoff_hz : ℚ) (resonance : ℚ := 1/2) :
    List ℚ :=
  let rc := 1 / (2 * piFloat * cutoff_hz)
  let dt := 1 / SAMPLE_RATE
  let alpha := dt / (rc + dt)
  lpGo alpha samples 0

/-- The recurrence loop of `highpass_filter`:
`y = alpha*(prev_y + s - prev_x)`. -/
def hpGo (alpha : ℚ) : List ℚ → ℚ → ℚ → List ℚ
  | [], _, _ => []
  | s :: rest, prevX, prevY =>
    let y := alpha * (prevY + s - prevX)
    y :: hpGo alpha rest s y

/-- `highpass_filter(samples, cutoff_hz)`. -/
def highpass_filter (samples : List ℚ) (cutoff_hz : ℚ) : List ℚ :=
  let rc := 1 / (2 * piFloat * cutoff_hz)
  let dt := 1 / SAMPLE_RATE
  let alpha := rc / (rc + dt)
  hpGo alpha samples 0 0

/-- `bandpass_filter(samples, low_hz, high_hz)`:
`highpass_filter(lowpass_filter(samples, high_hz), low_hz)`. -/
def bandpass_filter (samples : List ℚ) (low_hz high_hz : ℚ) : List ℚ :=
  highpass_filter (lowpass_filter samples high_hz) low_hz

/-- One iteration of `apply_envelope`'s attack loop:
`result[i] *= i / attack_samples`. -/
def attackStep (a : ℕ) (acc : Option (List ℚ)) (i : ℕ) : Option (List ℚ) :=
  acc.bind fun result =>
    (pyGet result i).bind fun v => pySet result i (v * ((i : ℚ) / (a : ℚ)))

/-- One iteration of `apply_envelope`'s release loop:
`idx = n - release_samples + i; result[idx] *= (release_samples - i) / release_samples`. -/
def releaseStep (r n : ℕ) (acc : Option (List ℚ)) (i : ℕ) : Option (List ℚ) :=
  acc.bind fun result =>
    let idx : ℤ := (n : ℤ) - (r : ℤ) + (i : ℤ)
    (pyGet result idx).bind fun v =>
      pySet result idx (v * (((r : ℚ) - (i : ℚ)) / (r : ℚ)))

/-- `apply_envelope(samples, attack=0.01, release=0.05)` from the script.
The two in-place loops are folds over `range`; an out-of-range index raises
(`none`). -/
def apply_envelope (samples : List ℚ) (attack : ℚ := 1/100)
    (release : ℚ := 1/20) : Option (List ℚ) :=
  let n := samples.length
  let attack_samples := pyNat (attack * SAMPLE_RATE)
  let release_samples := pyNat (release * SAMPLE_RATE)
  ((List.range attack_samples).foldl (attackStep attack_samples)
      (some samples)).bind fun r1 =>
    (List.range release_samples).foldl (releaseStep release_samples n) (some r1)

/-- `max(abs(s) for s in samples)`: `none` on an empty buffer
(Python raises `ValueError`). -/
def maxAbs : List ℚ → Option ℚ
  | [] => none
  | x :: xs => some (xs.foldl (fun a s => max a |s|) |x|)

/-- `normalize(samples, peak=0.85)` from the script. -/
def normalize (samples : List ℚ) (peak : ℚ := 85/100) : Option (List ℚ) :=
  (maxAbs samples).map fun max_val =>
    if max_val < 1/1000000000 then samples
    else samples.map fun s => s * (peak / max_val)

/-- The inner loop of `mix`: `for i in range(len(sl)): result[i] += sl[i] * w`.
Every touched index satisfies `i < len sl ≤ len result`, so the Python code
never raises here; `List.set` is in range at every use. -/
def addInto (res : List ℚ) (sl : List ℚ) (w : ℚ) : List ℚ :=
  (List.range sl.length).foldl
    (fun r i => r.set i (r.getD i 0 + sl.getD i 0 * w)) res

/-- `mix(*sample_lists, weights=None)` from the script.  With zero input
buffers `max()` over an empty generator raises `ValueError` (`none`). -/
def mix (sample_lists : List (List ℚ)) (weights : Option (List ℚ)) :
    Option (List ℚ) :=
  match sample_lists with
  | [] => none
  | _ :: _ =>
    let n := (sample_lists.map List.length).foldl max 0
    let ws := match weights with
      | none =>
        List.replicate sample_lists.length ((1 : ℚ) / (sample_lists.length : ℚ))
      | some w => w
    some ((sample_lists.zip ws).foldl
      (fun res p => addInto res p.1 p.2) (List.replicate n (0 : ℚ)))

/-- The loop body of `overlay_samples`:
`for i, s in enumerate(overlay): idx = start + i; if idx < len(result): result[idx] += s * amp`. -/
def overlayGo (result : List ℚ) : List ℚ → ℕ → ℚ → List ℚ
  | [], _, _ => result
  | s :: rest, idx, amp =>
    let r := if idx < result.length
      then result.set idx (result.getD idx 0 + s * amp)
      else result
    overlayGo r rest (idx + 1) amp

/-- `overlay_samples(base, overlay, start_sample, amp=1.0)` from the script
(`start_sample` is a nonnegative sample index at every call site). -/
def overlay_samples (base overlay : List ℚ) (start_sample : ℕ)
    (amp : ℚ := 1) : List ℚ :=
  overlayGo base overlay start_sample amp

/-- The oscillator loop of `gen_biplane_engine` (lines 151-172): phase state,
five phase-locked harmonics, wrap at `6π` (subtracting `6π`).
`mt 1 i` is the `i`-th `rng.uniform(-1, 1)` draw of `random.Random(1)`. -/
def biplaneOscGo (mt : ℤ → ℕ → ℚ) (sinQ : ℚ → ℚ) :
    ℕ → ℕ → ℚ → List ℚ
  | 0, _, _ => []
  | fuel + 1, i, phase =>
    let t : ℚ := (i : ℚ) / SAMPLE_RATE
    let base_freq := 95 + 20 * sinQ (2 * piFloat * (7/10) * t)
    let irregularity :=
      1 + (8/100) * sinQ (2 * piFloat * (31/10) * t) + (3/100) * mt 1 i
    let freq := base_freq * irregularity
    let s := (1/2) * sinQ phase + (1/4) * sinQ (2 * phase) +
      (15/100) * sinQ (3 * phase) + (8/100) * sinQ (4 * phase) +
      (4/100) * sinQ (6 * phase)
    let phase1 := phase + 2 * piFloat * freq / SAMPLE_RATE
    s :: biplaneOscGo mt sinQ fuel (i + 1)
      (if phase1 > 6 * piFloat then phase1 - 6 * piFloat else phase1)

/-- `gen_biplane_engine(duration=4.0)` from the script, over exact rationals:
oscillator stack, low-passed noise floor (`seed=2`), putter amplitude
modulation, envelope and normalization. -/
def gen_biplane_engine (mt : ℤ → ℕ → ℚ) (sinQ : ℚ → ℚ) (duration : ℚ := 4) :
    Option (List ℚ) :=
  let n := pyNat (duration * SAMPLE_RATE)
  let samples := biplaneOscGo mt sinQ n 0 0
  let noise := lowpass_filter (white_noise mt n 2) 200
  let combined := (List.range n).map fun i =>
    samples.getD i 0 * (3/4) + noise.getD i 0 * (15/100)
  let result := enumMap
    (fun i s => s * ((85/100) + (15/100) *
      sinQ (2 * piFloat * 14 * ((i : ℚ) / SAMPLE_RATE)))) 0 combined
  (apply_envelope result (5/100) (5/100)).bind fun e => normalize e

/-- `gen_hihat(duration=0.08, open_hat=False)` from the script.  Note the
source: `n = int(duration * SAMPLE_RATE if not open_hat else 0.15 * SAMPLE_RATE)`,
so with `open_hat=True` the `duration` argument is ignored. -/
def gen_hihat (mt : ℤ → ℕ → ℚ) (expQ : ℚ → ℚ) (duration : ℚ := 8/100)
    (open_hat : Bool := false) : List ℚ :=
  let decay : ℚ := if open_hat then 12 else 2
  let n : ℕ := if open_hat then pyNat ((15/100) * SAMPLE_RATE)
    else pyNat (duration * SAMPLE_RATE)
  let noise := white_noise mt n 20
  let hp := bandpass_filter noise 6000 16000
  enumMap (fun i s =>
    s * expQ (-((i : ℚ) / SAMPLE_RATE) * (decay * 10)) * (4/10)) 0 hp

/-- `note_to_freq(note)`: `440.0 * (2 ** ((note - 69) / 12.0))`, over exact
real arithmetic. -/
noncomputable def note_to_freq (note : ℤ) : ℝ :=
  440 * (2 : ℝ) ^ (((note : ℝ) - 69) / 12)

/-- Tempo of `gen_lofi_track_01`. -/
def bpm01 : ℚ := 75

/-- `beat = SAMPLE_RATE * 60.0 / bpm` in `gen_lofi_track_01`
(samples per beat). -/
def beat01 : ℚ := SAMPLE_RATE * 60 / bpm01

/-- The melody list of `gen_lofi_track_01`:
`(beat_offset, MIDI note, duration_beats, amp)`. -/
def melody01 : List (ℚ × ℤ × ℚ × ℚ) :=
  [(0, 72, 1, 6/10), (1, 69, 1/2, 5/10), (3/2, 67, 1/2, 5/10),
   (2, 64, 1, 55/100), (3, 67, 1/2, 5/10), (7/2, 69, 1/2, 5/10),
   (4, 72, 3/2, 6/10), (11/2, 67, 1/2, 5/10), (6, 64, 1, 55/100),
   (7, 60, 1, 5/10), (8, 69, 3/4, 55/100), (9, 67, 1/2, 5/10),
   (19/2, 64, 1/2, 5/10), (10, 72, 1, 6/10), (11, 69, 1, 55/100)]

/-- The bass list of `gen_lofi_track_01`. -/
def bass01 : List (ℚ × ℤ × ℚ × ℚ) :=
  [(0, 48, 1, 45/100), (2, 43, 1, 4/10), (4, 48, 1, 45/100),
   (6, 45, 1, 4/10), (8, 48, 1, 45/100), (10, 43, 1, 4/10)]

/-- `start = int(beat_off * beat)`: the sample offset the sequencer hands to
`overlay_samples` for an event at `beat_off` beats. -/
def noteStart (beat : ℚ) (beat_off : ℚ) : ℤ := pyInt (beat_off * beat)

/-- Number of whole-beat drum slots in `gen_lofi_track_01`:
`range(int(duration * bpm / 60))` with `duration = 12.0`. -/
def drumBeats01 : ℕ := pyNat (12 * bpm01 / 60)

/-- Number of half-beat hi-hat slots in `gen_lofi_track_01`:
`range(int(duration * bpm / 30))`. -/
def hihatBeats01 : ℕ := pyNat (12 * bpm01 / 30)

/-- The hi-hat placement of `gen_lofi_track_01`:
`start = int(beat_idx_h * beat / 2)`. -/
def hihatStart01 (beat_idx_h : ℕ) : ℤ := pyInt ((beat_idx_h : ℚ) * beat01 / 2)

/-- Tempo of `gen_lofi_track_02`. -/
def bpm02 : ℚ := 68

/-- Samples per beat in `gen_lofi_track_02`. -/
def beat02 : ℚ := SAMPLE_RATE * 60 / bpm02

/-- The melody list of `gen_lofi_track_02`. -/
def melody02 : List (ℚ × ℤ × ℚ × ℚ) :=
  [(0, 69, 1, 6/10), (1, 67, 1/2, 5/10), (3/2, 64, 1/2, 5/10),
   (2, 62, 3/2, 55/100), (7/2, 60, 1/2, 5/10), (4, 64, 1, 6/10),
   (5, 67, 3/4, 55/100), (23/4, 69, 5/4, 6/10), (7, 64, 1, 55/100),
   (8, 60, 1/2, 5/10), (17/2, 62, 1/2, 5/10), (9, 67, 1, 55/100),
   (10, 69, 3/2, 6/10), (23/2, 67, 3/2, 5/10)]

/-- One pass of the phase advance in `gen_coin_collect`'s loop (lines
814-819).  The source then runs `for p in [phase1, phase2, phase3]: if p >
2π: p -= 2π`, which rebinds only the loop variable `p` (marked `# noqa` in
the source) and leaves all three phase accumulators unchanged, so the state
update is exactly the three unconditional increments. -/
def coinStep (ps : ℚ × ℚ × ℚ) : ℚ × ℚ × ℚ :=
  (ps.1 + 2 * piFloat * (26370/20) / SAMPLE_RATE,
   ps.2.1 + 2 * piFloat * 2093 / SAMPLE_RATE,
   ps.2.2 + 2 * piFloat * 880 / SAMPLE_RATE)

/-- The sample loop of `gen_coin_collect`. -/
def coinGo (sinQ expQ : ℚ → ℚ) : ℕ → ℕ → (ℚ × ℚ × ℚ) → List ℚ
  | 0, _, _ => []
  | fuel + 1, i, ps =>
    let t : ℚ := (i : ℚ) / SAMPLE_RATE
    let env := expQ (-t * 15) * (1 - expQ (-t * 300))
    let s := sinQ ps.1 * (1/2) + sinQ ps.2.1 * (3/10) + sinQ ps.2.2 * (2/10)
    (s * env) :: coinGo sinQ expQ fuel (i + 1) (coinStep ps)

/-- `gen_coin_collect(duration=0.35)` from the script. -/
def gen_coin_collect (sinQ expQ : ℚ → ℚ) (duration : ℚ := 35/100) :
    Option (List ℚ) :=
  normalize (coinGo sinQ expQ (pyNat (duration * SAMPLE_RATE)) 0 (0, 0, 0))

/-- The three phase accumulators of `gen_coin_collect` after `k` loop
iterations (all start at `0.0`). -/
def coinPhases (k : ℕ) : ℚ × ℚ × ℚ := coinStep^[k] (0, 0, 0)

/-- The wrapped oscillator loop of `sine_wave_varying(freq_fn, n_samples,
amp=1.0)` (lines 116-127), over exact real arithmetic: emit
`amp * sin(phase)`, advance the phase by `2π·freq_fn(t)/SAMPLE_RATE`, wrap by
subtracting `2π` when the phase exceeds `2π`. -/
noncomputable def svvGo (freq_fn : ℝ → ℝ) (amp : ℝ) :
    ℕ → ℕ → ℝ → List ℝ
  | 0, _, _ => []
  | fuel + 1, i, phase =>
    let t : ℝ := (i : ℝ) / 44100
    let freq := freq_fn t
    let phase1 := phase + 2 * Real.pi * freq / 44100
    (amp * Real.sin phase) :: svvGo freq_fn amp fuel (i + 1)
      (if phase1 > 2 * Real.pi then phase1 - 2 * Real.pi else phase1)

/-- `sine_wave_varying` over exact real arithmetic. -/
noncomputable def sine_wave_varying (freq_fn : ℝ → ℝ) (n_samples : ℕ)
    (amp : ℝ := 1) : List ℝ :=
  svvGo freq_fn amp n_samples 0 0

/-- The reference oscillator from the spec's words: identical to `svvGo` but
the phase is never reduced. -/
noncomputable def svvNowrapGo (freq_fn : ℝ → ℝ) (amp : ℝ) :
    ℕ → ℕ → ℝ → List ℝ
  | 0, _, _ => []
  | fuel + 1, i, phase =>
    let t : ℝ := (i : ℝ) / 44100
    let freq := freq_fn t
    (amp * Real.sin phase) :: svvNowrapGo freq_fn amp fuel (i + 1)
      (phase + 2 * Real.pi * freq / 44100)

/-- `sine_wave_varying` with the unwrapped reference phase. -/
noncomputable def sine_wave_varying_nowrap (freq_fn : ℝ → ℝ) (n_samples : ℕ)
    (amp : ℝ := 1) : List ℝ :=
  svvNowrapGo freq_fn amp n_samples 0 0

/-- The oscillator loop of `gen_biplane_engine` over exact real arithmetic
(harmonics 1,2,3,4,6; wrap at `6π` by subtracting `6π`).  `rng i` is the
`i`-th `uniform(-1, 1)` draw of `random.Random(1)`. -/
noncomputable def biplaneOscRGo (rng : ℕ → ℝ) : ℕ → ℕ → ℝ → List ℝ
  | 0, _, _ => []
  | fuel + 1, i, phase =>
    let t : ℝ := (i : ℝ) / 44100
    let base_freq := 95 + 20 * Real.sin (2 * Real.pi * (7/10) * t)
    let irregularity :=
      1 + (8/100) * Real.sin (2 * Real.pi * (31/10) * t) + (3/100) * rng i
    let freq := base_freq * irregularity
    let s := (1/2) * Real.sin phase + (1/4) * Real.sin (2 * phase) +
      (15/100) * Real.sin (3 * phase) + (8/100) * Real.sin (4 * phase) +
      (4/100) * Real.sin (6 * phase)
    let phase1 := phase + 2 * Real.pi * freq / 44100
    s :: biplaneOscRGo rng fuel (i + 1)
      (if phase1 > 6 * Real.pi then phase1 - 6 * Real.pi else phase1)

/-- The biplane oscillator loop with the unwrapped reference phase
(spec-side definition for the refinement claim). -/
noncomputable def biplaneOscRNowrapGo (rng : ℕ → ℝ) : ℕ → ℕ → ℝ → List ℝ
  | 0, _, _ => []
  | fuel + 1, i, phase =>
    let t : ℝ := (i : ℝ) / 44100
    let base_freq := 95 + 20 * Real.sin (2 * Real.pi * (7/10) * t)
    let irregularity :=
      1 + (8/100) * Real.sin (2 * Real.pi * (31/10) * t) + (3/100) * rng i
    let freq := base_freq * irregularity
    let s := (1/2) * Real.sin phase + (1/4) * Real.sin (2 * phase) +
      (15/100) * Real.sin (3 * phase) + (8/100) * Real.sin (4 * phase) +
      (4/100) * Real.sin (6 * phase)
    s :: biplaneOscRNowrapGo rng fuel (i + 1)
      (phase + 2 * Real.pi * freq / 44100)

/-! ## Auxiliary list lemmas -/

theorem getD_set_self (l : List ℚ) (i : ℕ) (v : ℚ) (h : i < l.length) :
    (l.set i v).getD i 0 = v := by
  simp [List.getD_eq_getElem?_getD, List.getElem?_set_self h]

theorem getD_set_ne (l : List ℚ) (i j : ℕ) (v : ℚ) (h : i ≠ j) :
    (l.set i v).getD j 0 = l.getD j 0 := by
  simp [List.getD_eq_getElem?_getD, List.getElem?_set_ne h]

theorem getD_range_map (n i : ℕ) (f : ℕ → ℚ) (h : i < n) :
    ((List.range n).map f).getD i 0 = f i := by
  simp [List.getD_eq_getElem?_getD, List.getElem?_map, List.getElem?_range h]

theorem enumMap_length (f : ℕ → ℚ → ℚ) :
    ∀ (l : List ℚ) (i : ℕ), (enumMap f i l).length = l.length := by
  intro l
  induction l with
  | nil => intro i; rfl
  | cons s rest ih => intro i; simp [enumMap, ih]

theorem lpGo_length (alpha : ℚ) :
    ∀ (l : List ℚ) (prev : ℚ), (lpGo alpha l prev).length = l.length := by
  intro l
  induction l with
  | nil => intro prev; rfl
  | cons s rest ih => intro prev; simp [lpGo, ih]

theorem hpGo_length (alpha : ℚ) :
    ∀ (l : List ℚ) (px py : ℚ), (hpGo alpha l px py).length = l.length := by
  intro l
  induction l with
  | nil => intro px py; rfl
  | cons s rest ih => intro px py; simp [hpGo, ih]

theorem lowpass_filter_length (l : List ℚ) (c r : ℚ) :
    (lowpass_filter l c r).length = l.length := by
  simp [lowpass_filter, lpGo_length]

theorem highpass_filter_length (l : List ℚ) (c : ℚ) :
    (highpass_filter l c).length = l.length := by
  simp [highpass_filter, hpGo_length]

theorem bandpass_filter_length (l : List ℚ) (lo hi : ℚ) :
    (bandpass_filter l lo hi).length = l.length := by
  simp [bandpass_filter, highpass_filter_length, lowpass_filter_length]

theorem white_noise_length (mt : ℤ → ℕ → ℚ) (n : ℕ) (seed : ℤ) :
    (white_noise mt n seed).length = n := by
  simp [white_noise]

/-! ## Overlay loop characterization -/

theorem overlayGo_spec (amp : ℚ) :
    ∀ (ov result : List ℚ) (idx0 : ℕ),
      (overlayGo result ov idx0 amp).length = result.length ∧
      ∀ j : ℕ, (overlayGo result ov idx0 amp).getD j 0 =
        if idx0 ≤ j ∧ j < idx0 + ov.length ∧ j < result.length
        then result.getD j 0 + ov.getD (j - idx0) 0 * amp
        else result.getD j 0 := by
  intro ov
  induction ov with
  | nil =>
    intro result idx0
    refine ⟨rfl, fun j => ?_⟩
    have h : ¬(idx0 ≤ j ∧ j < idx0 + ([] : List ℚ).length ∧ j < result.length) := by
      simp; omega
    simp [overlayGo, h]
  | cons s rest ih =>
    intro result idx0
    set r := if idx0 < result.length
      then result.set idx0 (result.getD idx0 0 + s * amp)
      else result with hr
    have hlen : r.length = result.length := by
      rw [hr]; split <;> simp
    have hontail := ih r (idx0 + 1)
    have hstep : overlayGo result (s :: rest) idx0 amp =
        overlayGo r rest (idx0 + 1) amp := by
      rw [hr]; rfl
    constructor
    · rw [hstep, hontail.1, hlen]
    · intro j
      rw [hstep, hontail.2 j]
      by_cases hj : j = idx0
      · subst hj
        have hc1 : ¬(j + 1 ≤ j ∧ j < j + 1 + rest.length ∧ j < r.length) := by
          omega
        rw [if_neg hc1]
        by_cases hin : j < result.length
        · have : r.getD j 0 = result.getD j 0 + s * amp := by
            rw [hr, if_pos hin]; exact getD_set_self _ _ _ hin
          rw [this]
          have hc2 : j ≤ j ∧ j < j + (s :: rest).length ∧ j < result.length := by
            simp; omega
          rw [if_pos hc2]
          simp
        · have : r = result := by rw [hr, if_neg hin]
          rw [this]
          have hc2 : ¬(j ≤ j ∧ j < j + (s :: rest).length ∧
              j < result.length) := by
            simp; omega
          rw [if_neg hc2]
      · have hrj : r.getD j 0 = result.getD j 0 := by
          rw [hr]; split
          · exact getD_set_ne _ _ _ _ (fun h => hj h.symm)
          · rfl
        rw [hrj, hlen]
        by_cases hc : idx0 + 1 ≤ j ∧ j < idx0 + 1 + rest.length ∧ j < result.length
        · rw [if_pos hc]
          have hc2 : idx0 ≤ j ∧ j < idx0 + (s :: rest).length ∧
              j < result.length := by simp; omega
          rw [if_pos hc2]
          have hsub : j - idx0 = (j - (idx0 + 1)) + 1 := by omega
          rw [hsub]
          simp
        · rw [if_neg hc]
          have hc2 : ¬(idx0 ≤ j ∧ j < idx0 + (s :: rest).length ∧
              j < result.length) := by
            simp only [List.length_cons]
            intro h
            exact hc (by omega)
          rw [if_neg hc2]

/-! ## Envelope loop characterization -/

theorem pyIdx_coe_lt (n i : ℕ) (h : i < n) : pyIdx n (i : ℤ) = some i := by
  have h1 : 0 ≤ (i : ℤ) ∧ (i : ℤ) < (n : ℤ) := by omega
  simp [pyIdx, h1]

theorem attackLoop_spec (a : ℕ) :
    ∀ (k : ℕ) (samples : List ℚ), k ≤ samples.length →
      ∃ l, (List.range k).foldl (attackStep a) (some samples) = some l ∧
        l.length = samples.length ∧
        ∀ i : ℕ, l.getD i 0 =
          if i < k then samples.getD i 0 * ((i : ℚ) / (a : ℚ))
          else samples.getD i 0 := by
  intro k
  induction k with
  | zero =>
    intro samples _
    exact ⟨samples, rfl, rfl, fun i => by simp⟩
  | succ k ih =>
    intro samples hk
    obtain ⟨l, hl, hlen, hget⟩ := ih samples (by omega)
    have hkl : k < l.length := by omega
    refine ⟨l.set k (samples.getD k 0 * ((k : ℚ) / (a : ℚ))), ?_, ?_, ?_⟩
    · rw [List.range_succ, List.foldl_append, hl]
      simp only [List.foldl_cons, List.foldl_nil, attackStep, Option.bind_eq_bind,
        Option.some_bind, pyGet, pySet, hlen]
      rw [pyIdx_coe_lt _ _ (by omega : k < samples.length)]
      simp only [Option.map_some', Option.some_bind, Int.toNat_ofNat,
        Option.map_eq_map, Int.toNat_natCast]
      rw [hget k, if_neg (lt_irrefl k)]
    · rw [List.length_set, hlen]
    · intro i
      by_cases hik : i = k
      · subst hik
        rw [getD_set_self _ _ _ hkl, if_pos (by omega)]
      · rw [getD_set_ne _ _ _ _ (fun h => hik h.symm), hget i]
        by_cases hi : i < k
        · rw [if_pos hi, if_pos (by omega)]
        · rw [if_neg hi, if_neg (by omega)]

theorem releaseLoop_spec (r n : ℕ) (hr : r ≤ n) :
    ∀ (k : ℕ) (l : List ℚ), k ≤ r → l.length = n →
      ∃ l2, (List.range k).foldl (releaseStep r n) (some l) = some l2 ∧
        l2.length = n ∧
        ∀ j : ℕ, l2.getD j 0 =
          if n - r ≤ j ∧ j < n - r + k
          then l.getD j 0 * (((r : ℚ) - ((j - (n - r) : ℕ) : ℚ)) / (r : ℚ))
          else l.getD j 0 := by
  intro k
  induction k with
  | zero =>
    intro l _ hlen
    exact ⟨l, rfl, hlen, fun j => by rw [if_neg (by omega)]⟩
  | succ k ih =>
    intro l hk hlen
    obtain ⟨l2, hl2, hlen2, hget⟩ := ih l (by omega) hlen
    have hidx : ((n : ℤ) - (r : ℤ) + (k : ℤ)) = ((n - r + k : ℕ) : ℤ) := by omega
    have hin : n - r + k < n := by omega
    have hinl2 : n - r + k < l2.length := by omega
    have hvalue : l2.getD (n - r + k) 0 = l.getD (n - r + k) 0 := by
      rw [hget, if_neg (by omega)]
    refine ⟨l2.set (n - r + k)
      (l.getD (n - r + k) 0 * (((r : ℚ) - (k : ℚ)) / (r : ℚ))), ?_, ?_, ?_⟩
    · rw [List.range_succ, List.foldl_append, hl2]
      simp only [List.foldl_cons, List.foldl_nil, releaseStep,
        Option.bind_eq_bind, Option.some_bind, pyGet, pySet, hlen2, hidx]
      rw [pyIdx_coe_lt _ _ hin]
      simp only [Option.map_some', Option.some_bind, Option.map_eq_map,
        Int.toNat_natCast]
      rw [hvalue]
    · rw [List.length_set, hlen2]
    · intro j
      by_cases hjk : j = n - r + k
      · subst hjk
        rw [getD_set_self _ _ _ hinl2, if_pos (by omega)]
        have : (n - r + k) - (n - r) = k := by omega
        rw [this]
      · rw [getD_set_ne _ _ _ _ (fun h => hjk h.symm), hget j]
        by_cases hj : n - r ≤ j ∧ j < n - r + k
        · rw [if_pos hj, if_pos (by omega)]
        · rw [if_neg hj, if_neg (by omega)]

theorem apply_envelope_spec (samples : List ℚ) (attack release : ℚ)
    (ha : 1 ≤ pyNat (attack * SAMPLE_RATE))
    (hrel : 1 ≤ pyNat (release * SAMPLE_RATE))
    (hn : pyNat (attack * SAMPLE_RATE) + pyNat (release * SAMPLE_RATE) ≤
      samples.length) :
    ∃ res, apply_envelope samples attack release = some res ∧
      res.length = samples.length ∧
      (∀ i : ℕ, i < pyNat (attack * SAMPLE_RATE) →
        res.getD i 0 = samples.getD i 0 *
          ((i : ℚ) / (pyNat (attack * SAMPLE_RATE) : ℚ))) ∧
      (∀ i : ℕ, samples.length - pyNat (release * SAMPLE_RATE) ≤ i →
        i < samples.length →
        res.getD i 0 = samples.getD i 0 *
          (((pyNat (release * SAMPLE_RATE) : ℚ) -
            ((i - (samples.length - pyNat (release * SAMPLE_RATE)) : ℕ) : ℚ)) /
            (pyNat (release * SAMPLE_RATE) : ℚ))) ∧
      (∀ i : ℕ, pyNat (attack * SAMPLE_RATE) ≤ i →
        i < samples.length - pyNat (release * SAMPLE_RATE) →
        res.getD i 0 = samples.getD i 0) ∧
      res.getD 0 0 = 0 ∧
      res.getD (samples.length - 1) 0 = samples.getD (samples.length - 1) 0 *
        (1 / (pyNat (release * SAMPLE_RATE) : ℚ)) := by
  set a := pyNat (attack * SAMPLE_RATE) with hadef
  set r := pyNat (release * SAMPLE_RATE) with hrdef
  set n := samples.length with hndef
  obtain ⟨l1, h1, hlen1, hget1⟩ := attackLoop_spec a a samples (by omega)
  obtain ⟨l2, h2, hlen2, hget2⟩ :=
    releaseLoop_spec r n (by omega) r l1 le_rfl (by omega)
  have hrn : n - r + r = n := by omega
  have hl1out : ∀ i : ℕ, n - r ≤ i → l1.getD i 0 = samples.getD i 0 := by
    intro i hi
    rw [hget1 i, if_neg (by omega)]
  refine ⟨l2, ?_, by omega, ?_, ?_, ?_, ?_, ?_⟩
  · simp only [apply_envelope, ← hadef, ← hrdef, ← hndef]
    rw [h1, Option.some_bind, h2]
  · intro i hi
    rw [hget2 i, if_neg (by omega), hget1 i, if_pos hi]
  · intro i hi1 hi2
    rw [hget2 i, if_pos (by omega), hl1out i hi1]
  · intro i hi1 hi2
    rw [hget2 i, if_neg (by omega), hget1 i, if_neg (by omega)]
  · rw [hget2 0, if_neg (by omega), hget1 0, if_pos (by omega)]
    norm_num
  · rw [hget2 (n - 1), if_pos (by omega), hl1out (n - 1) (by omega)]
    have hsub : (n - 1) - (n - r) = r - 1 := by omega
    rw [hsub, Nat.cast_sub hrel]
    norm_num

/-! ## Normalizer lemmas -/

theorem foldl_maxabs_ge (xs : List ℚ) :
    ∀ a : ℚ, a ≤ xs.foldl (fun a s => max a |s|) a := by
  induction xs with
  | nil => intro a; exact le_refl a
  | cons s rest ih =>
    intro a
    exact le_trans (le_max_left a |s|) (ih (max a |s|))

theorem foldl_maxabs_scale (c : ℚ) (hc : 0 ≤ c) (xs : List ℚ) :
    ∀ a : ℚ, (xs.map (fun s => s * c)).foldl (fun a s => max a |s|) (a * c) =
      (xs.foldl (fun a s => max a |s|) a) * c := by
  induction xs with
  | nil => intro a; rfl
  | cons s rest ih =>
    intro a
    simp only [List.map_cons, List.foldl_cons]
    rw [abs_mul, abs_of_nonneg hc, ← max_mul_of_nonneg _ _ hc, ih]

theorem maxAbs_nonneg (l : List ℚ) (m : ℚ) (h : maxAbs l = some m) : 0 ≤ m := by
  cases l with
  | nil => exact absurd h (by simp [maxAbs])
  | cons x xs =>
    simp only [maxAbs, Option.some_inj] at h
    exact le_trans (abs_nonneg x) (h ▸ foldl_maxabs_ge xs |x|)

theorem maxAbs_map_mul (l : List ℚ) (c : ℚ) (hc : 0 ≤ c) (m : ℚ)
    (h : maxAbs l = some m) :
    maxAbs (l.map (fun s => s * c)) = some (m * c) := by
  cases l with
  | nil => exact absurd h (by simp [maxAbs])
  | cons x xs =>
    simp only [maxAbs, Option.some_inj] at h
    simp only [List.map_cons, maxAbs, Option.some_inj]
    rw [abs_mul, abs_of_nonneg hc, foldl_maxabs_scale c hc, h]

theorem normalize_length (l : List ℚ) (p : ℚ) (h : l ≠ []) :
    ∃ res, normalize l p = some res ∧ res.length = l.length := by
  cases l with
  | nil => exact absurd rfl h
  | cons x xs =>
    simp only [normalize, maxAbs, Option.map_some', Option.some_inj]
    split
    · exact ⟨_, rfl, rfl⟩
    · exact ⟨_, rfl, by simp⟩

theorem normalize_spec (l : List ℚ) (p m : ℚ) (hm : maxAbs l = some m)
    (hp : 0 < p) :
    (m < 1/1000000000 → normalize l p = some l) ∧
    (1/1000000000 ≤ m →
      ∃ res, normalize l p = some res ∧ maxAbs res = some p) := by
  constructor
  · intro hsmall
    simp only [normalize, hm, Option.map_some', if_pos hsmall]
  · intro hbig
    have hm0 : 0 < m := lt_of_lt_of_le (by norm_num) hbig
    refine ⟨l.map (fun s => s * (p / m)), ?_, ?_⟩
    · simp only [normalize, hm, Option.map_some', if_neg (not_lt.mpr hbig)]
    · rw [maxAbs_map_mul l (p / m) (div_nonneg hp.le hm0.le) m hm,
        mul_comm, div_mul_cancel₀ p hm0.ne']

/-! ## Mixer lemmas -/

theorem setLoop_length (sl : List ℚ) (w : ℚ) :
    ∀ (idxs : List ℕ) (res : List ℚ),
      (idxs.foldl (fun r i => r.set i (r.getD i 0 + sl.getD i 0 * w)) res).length =
        res.length := by
  intro idxs
  induction idxs with
  | nil => intro res; rfl
  | cons i rest ih =>
    intro res
    rw [List.foldl_cons, ih, List.length_set]

theorem addInto_length (res sl : List ℚ) (w : ℚ) :
    (addInto res sl w).length = res.length :=
  setLoop_length sl w (List.range sl.length) res

theorem mixFold_length :
    ∀ (ps : List (List ℚ × ℚ)) (res : List ℚ),
      (ps.foldl (fun res p => addInto res p.1 p.2) res).length = res.length := by
  intro ps
  induction ps with
  | nil => intro res; rfl
  | cons p rest ih =>
    intro res
    rw [List.foldl_cons, ih, addInto_length]

theorem foldl_max_le_mem (xs : List ℕ) :
    ∀ (a : ℕ), (a ≤ xs.foldl max a) ∧ ∀ x ∈ xs, x ≤ xs.foldl max a := by
  induction xs with
  | nil => intro a; exact ⟨le_refl a, by simp⟩
  | cons y ys ih =>
    intro a
    refine ⟨le_trans (le_max_left a y) (ih (max a y)).1, ?_⟩
    intro x hx
    rcases List.mem_cons.mp hx with h | h
    · subst h
      exact le_trans (le_max_right a x) (ih (max a x)).1
    · exact (ih (max a y)).2 x h

theorem foldl_max_attained (xs : List ℕ) :
    ∀ a : ℕ, xs.foldl max a = a ∨ ∃ x ∈ xs, xs.foldl max a = x := by
  induction xs with
  | nil => intro a; exact Or.inl rfl
  | cons y ys ih =>
    intro a
    rcases ih (max a y) with h | ⟨x, hx, hfx⟩
    · rcases max_choice a y with hm | hm
      · exact Or.inl (by rw [List.foldl_cons, h, hm])
      · exact Or.inr ⟨y, List.mem_cons_self y ys, by rw [List.foldl_cons, h, hm]⟩
    · exact Or.inr ⟨x, List.mem_cons_of_mem y hx, by rw [List.foldl_cons, hfx]⟩

theorem mix_spec (ls : List (List ℚ)) (w : Option (List ℚ)) (h : ls ≠ []) :
    ∃ r, mix ls w = some r ∧
      (∀ l ∈ ls, l.length ≤ r.length) ∧ (∃ l ∈ ls, r.length = l.length) := by
  cases ls with
  | nil => exact absurd rfl h
  | cons l0 ls' =>
    refine ⟨_, rfl, ?_, ?_⟩
    · intro l hl
      rw [mixFold_length, List.length_replicate]
      exact (foldl_max_le_mem (((l0 :: ls').map List.length)) 0).2 l.length
        (List.mem_map_of_mem List.length hl)
    · rw [mixFold_length, List.length_replicate]
      rcases foldl_max_attained ((l0 :: ls').map List.length) 0 with h0 | ⟨x, hx, hfx⟩
      · refine ⟨l0, List.mem_cons_self l0 ls', ?_⟩
        have hle := (foldl_max_le_mem ((l0 :: ls').map List.length) 0).2 l0.length
          (List.mem_map_of_mem List.length (List.mem_cons_self l0 ls'))
        omega
      · obtain ⟨l, hl, hlx⟩ := List.mem_map.mp hx
        exact ⟨l, hl, by rw [hfx, hlx]⟩

theorem mix_default_weights (ls : List (List ℚ)) :
    mix ls none =
      mix ls (some (List.replicate ls.length ((1 : ℚ) / (ls.length : ℚ)))) := by
  cases ls <;> rfl

/-! ## Numeric evaluation helpers -/

theorem pyInt_eq_of_nonneg (q : ℚ) (z : ℤ) (h1 : ¬q < 0) (h2 : ⌊q⌋ = z) :
    pyInt q = z := by
  rw [pyInt, if_neg h1, h2]

theorem pyNat_eq (q : ℚ) (n : ℕ) (h1 : ¬q < 0) (h2 : ⌊q⌋ = (n : ℤ)) :
    pyNat q = n := by
  rw [pyNat, pyInt, if_neg h1, h2, Int.toNat_natCast]

/-! ## Recipe length lemmas -/

theorem gen_hihat_length (mt : ℤ → ℕ → ℚ) (expQ : ℚ → ℚ) (d : ℚ) (oh : Bool) :
    (gen_hihat mt expQ d oh).length =
      if oh then pyNat ((15/100) * SAMPLE_RATE) else pyNat (d * SAMPLE_RATE) := by
  cases oh <;>
    simp [gen_hihat, enumMap_length, bandpass_filter_length, white_noise_length]

theorem biplaneOscGo_length (mt : ℤ → ℕ → ℚ) (sinQ : ℚ → ℚ) :
    ∀ (fuel i : ℕ) (phase : ℚ),
      (biplaneOscGo mt sinQ fuel i phase).length = fuel := by
  intro fuel
  induction fuel with
  | zero => intro i phase; rfl
  | succ fuel ih => intro i phase; simp [biplaneOscGo, ih]

theorem envelope_normalize_length (x : List ℚ) (attack release : ℚ)
    (ha : 1 ≤ pyNat (attack * SAMPLE_RATE))
    (hrel : 1 ≤ pyNat (release * SAMPLE_RATE))
    (hn : pyNat (attack * SAMPLE_RATE) + pyNat (release * SAMPLE_RATE) ≤
      x.length) :
    ∃ l, (apply_envelope x attack release).bind (fun e => normalize e) =
        some l ∧ l.length = x.length := by
  obtain ⟨res, heq, hlen, -⟩ := apply_envelope_spec x attack release ha hrel hn
  have hne : res ≠ [] := by
    apply List.ne_nil_of_length_pos
    omega
  obtain ⟨fin, hfin, hfinlen⟩ := normalize_length res (85/100) hne
  exact ⟨fin, by rw [heq, Option.some_bind, hfin], by omega⟩

theorem gen_biplane_engine_spec (mt : ℤ → ℕ → ℚ) (sinQ : ℚ → ℚ) (d : ℚ)
    (hd : 4410 ≤ pyNat (d * SAMPLE_RATE)) :
    ∃ l, gen_biplane_engine mt sinQ d = some l ∧
      l.length = pyNat (d * SAMPLE_RATE) := by
  have hval : pyNat ((5/100 : ℚ) * SAMPLE_RATE) = 2205 :=
    pyNat_eq _ _ (by norm_num [SAMPLE_RATE]) (by norm_num [SAMPLE_RATE])
  have hx : ∀ x : List ℚ, x.length = pyNat (d * SAMPLE_RATE) →
      ∃ l, (apply_envelope x (5/100) (5/100)).bind (fun e => normalize e) =
        some l ∧ l.length = pyNat (d * SAMPLE_RATE) := by
    intro x hxl
    obtain ⟨l, hl, hlen⟩ := envelope_normalize_length x (5/100) (5/100)
      (by omega) (by omega) (by omega)
    exact ⟨l, hl, by omega⟩
  simp only [gen_biplane_engine]
  apply hx
  simp [enumMap_length]

/-! ## Coin-collect phase accumulator -/

theorem coinPhases_fst (k : ℕ) :
    (coinPhases k).1 = (k : ℚ) * (2 * piFloat * (26370/20) / SAMPLE_RATE) := by
  induction k with
  | zero => simp [coinPhases]
  | succ k ih =>
    rw [coinPhases, Function.iterate_succ_apply']
    show (coinPhases k).1 + 2 * piFloat * (26370/20) / SAMPLE_RATE = _
    rw [ih]
    push_cast
    ring

/-! ## Phase-wrap equivalence over exact real arithmetic -/

theorem svvGo_shift (f : ℝ → ℝ) (amp : ℝ) :
    ∀ (fuel i : ℕ) (up : ℝ) (m : ℤ),
      svvGo f amp fuel i (up - (m : ℝ) * (2 * Real.pi)) =
        svvNowrapGo f amp fuel i up := by
  intro fuel
  induction fuel with
  | zero => intro i up m; rfl
  | succ fuel ih =>
    intro i up m
    simp only [svvGo, svvNowrapGo]
    congr 1
    · have h : up - (m : ℝ) * (2 * Real.pi) =
          up + ((-m : ℤ) : ℝ) * (2 * Real.pi) := by
        push_cast; ring
      rw [h, Real.sin_add_int_mul_two_pi]
    · set inc := 2 * Real.pi * f ((i : ℝ) / 44100) / 44100 with hinc
      by_cases hw : up - (m : ℝ) * (2 * Real.pi) + inc > 2 * Real.pi
      · rw [if_pos hw]
        have h2 : up - (m : ℝ) * (2 * Real.pi) + inc - 2 * Real.pi =
            (up + inc) - ((m + 1 : ℤ) : ℝ) * (2 * Real.pi) := by
          push_cast; ring
        rw [h2]
        exact ih (i + 1) (up + inc) (m + 1)
      · rw [if_neg hw]
        have h2 : up - (m : ℝ) * (2 * Real.pi) + inc =
            (up + inc) - (m : ℝ) * (2 * Real.pi) := by ring
        rw [h2]
        exact ih (i + 1) (up + inc) m

theorem sin_int_shift_six_pi (k : ℤ) (x : ℝ) (m : ℤ) :
    Real.sin ((k : ℝ) * (x - (m : ℝ) * (6 * Real.pi))) =
      Real.sin ((k : ℝ) * x) := by
  have h : (k : ℝ) * (x - (m : ℝ) * (6 * Real.pi)) =
      (k : ℝ) * x + ((-(3 * k * m) : ℤ) : ℝ) * (2 * Real.pi) := by
    push_cast; ring
  rw [h, Real.sin_add_int_mul_two_pi]

theorem biplane_harmonics_shift (x : ℝ) (m : ℤ) :
    (1/2) * Real.sin (x - (m : ℝ) * (6 * Real.pi)) +
      (1/4) * Real.sin (2 * (x - (m : ℝ) * (6 * Real.pi))) +
      (15/100) * Real.sin (3 * (x - (m : ℝ) * (6 * Real.pi))) +
      (8/100) * Real.sin (4 * (x - (m : ℝ) * (6 * Real.pi))) +
      (4/100) * Real.sin (6 * (x - (m : ℝ) * (6 * Real.pi))) =
    (1/2) * Real.sin x + (1/4) * Real.sin (2 * x) +
      (15/100) * Real.sin (3 * x) + (8/100) * Real.sin (4 * x) +
      (4/100) * Real.sin (6 * x) := by
  have e1 := sin_int_shift_six_pi 1 x m
  have e2 := sin_int_shift_six_pi 2 x m
  have e3 := sin_int_shift_six_pi 3 x m
  have e4 := sin_int_shift_six_pi 4 x m
  have e6 := sin_int_shift_six_pi 6 x m
  push_cast at e1 e2 e3 e4 e6
  rw [one_mul, one_mul] at e1
  rw [e1, e2, e3, e4, e6]

theorem biplaneOscRGo_shift (rng : ℕ → ℝ) :
    ∀ (fuel i : ℕ) (up : ℝ) (m : ℤ),
      biplaneOscRGo rng fuel i (up - (m : ℝ) * (6 * Real.pi)) =
        biplaneOscRNowrapGo rng fuel i up := by
  intro fuel
  induction fuel with
  | zero => intro i up m; rfl
  | succ fuel ih =>
    intro i up m
    simp only [biplaneOscRGo, biplaneOscRNowrapGo]
    congr 1
    · exact biplane_harmonics_shift up m
    · set inc := 2 * Real.pi *
        ((95 + 20 * Real.sin (2 * Real.pi * (7/10) * ((i : ℝ) / 44100))) *
          (1 + (8/100) * Real.sin (2 * Real.pi * (31/10) * ((i : ℝ) / 44100)) +
            (3/100) * rng i)) / 44100 with hinc
      by_cases hw : up - (m : ℝ) * (6 * Real.pi) + inc > 6 * Real.pi
      · rw [if_pos hw]
        have h2 : up - (m : ℝ) * (6 * Real.pi) + inc - 6 * Real.pi =
            (up + inc) - ((m + 1 : ℤ) : ℝ) * (6 * Real.pi) := by
          push_cast; ring
        rw [h2]
        exact ih (i + 1) (up + inc) (m + 1)
      · rw [if_neg hw]
        have h2 : up - (m : ℝ) * (6 * Real.pi) + inc =
            (up + inc) - (m : ℝ) * (6 * Real.pi) := by ring
        rw [h2]
        exact ih (i + 1) (up + inc) m

/-! ## Claim theorems -/

/-- C1, counterexample: the claim says every recipe's output length is
`round(duration × 44100)`; but `gen_hihat(0.08, open_hat=True)` ignores
`duration` and returns `int(0.15 × 44100) = 6615` samples, not
`round(0.08 × 44100) = 3528`. -/
theorem claim_C1_counterexample :
    (gen_hihat (fun _ _ => 0) (fun _ => 0) (8/100) true).length ≠
      (round ((8/100 : ℚ) * SAMPLE_RATE)).toNat := by
  rw [gen_hihat_length, if_pos rfl,
    pyNat_eq _ 6615 (by norm_num [SAMPLE_RATE]) (by norm_num [SAMPLE_RATE])]
  have h : round ((8/100 : ℚ) * SAMPLE_RATE) = 3528 := by
    norm_num [SAMPLE_RATE, round_eq]
  rw [h]
  omega

/-- C1 (amended): buffer lengths come from Python `int()` truncation, not
rounding: `gen_biplane_engine(duration)` returns exactly
`int(duration × 44100)` samples (for any duration long enough for its
0.05 s attack/release envelope), and `gen_hihat(duration, open_hat)` returns
`int(duration × 44100)` samples when `open_hat` is false but the fixed
`int(0.15 × 44100)` samples when `open_hat` is true. -/
theorem claim_C1_length_truncation :
    (∀ (mt : ℤ → ℕ → ℚ) (sinQ : ℚ → ℚ) (d : ℚ),
      4410 ≤ pyNat (d * SAMPLE_RATE) →
      ∃ l, gen_biplane_engine mt sinQ d = some l ∧
        l.length = pyNat (d * SAMPLE_RATE)) ∧
    (∀ (mt : ℤ → ℕ → ℚ) (expQ : ℚ → ℚ) (d : ℚ) (oh : Bool),
      (gen_hihat mt expQ d oh).length =
        if oh then pyNat ((15/100) * SAMPLE_RATE)
        else pyNat (d * SAMPLE_RATE)) :=
  ⟨fun mt sinQ d hd => gen_biplane_engine_spec mt sinQ d hd,
   fun mt expQ d oh => gen_hihat_length mt expQ d oh⟩

/-- C1, witness: the amended length law applied to
`gen_biplane_engine(duration=1.0)`. -/
theorem claim_C1_witness :
    4410 ≤ pyNat ((1 : ℚ) * SAMPLE_RATE) ∧
    ∃ l, gen_biplane_engine (fun _ _ => 0) (fun _ => 0) 1 = some l ∧
      l.length = pyNat ((1 : ℚ) * SAMPLE_RATE) := by
  have h : 4410 ≤ pyNat ((1 : ℚ) * SAMPLE_RATE) := by
    rw [pyNat_eq _ 44100 (by norm_num [SAMPLE_RATE]) (by norm_num [SAMPLE_RATE])]
    omega
  exact ⟨h, claim_C1_length_truncation.1 (fun _ _ => 0) (fun _ => 0) 1 h⟩

/-- C2, counterexample: the claim's rounding rule fails outside
`gen_lofi_track_01`: in `gen_lofi_track_02` (bpm = 68) the melody event at
`beat_offset = 1` is overlaid at `int(1 × 44100×60/68) = 38911`, while
`round(1 × 44100×60/68) = 38912`. -/
theorem claim_C2_counterexample :
    ((1 : ℚ), (67 : ℤ), (1/2 : ℚ), (1/2 : ℚ)) ∈ melody02 ∧
    noteStart beat02 1 = 38911 ∧ round ((1 : ℚ) * beat02) = 38912 := by
  refine ⟨by norm_num [melody02], ?_, ?_⟩
  · norm_num [noteStart, pyInt, beat02, bpm02, SAMPLE_RATE]
  · norm_num [beat02, bpm02, SAMPLE_RATE, round_eq]

/-- C2 (amended): the sequencer computes sample offsets by Python `int()`
truncation, `start = int(beat_offset × beat)`.  In `gen_lofi_track_01`
(bpm = 75, beat = 35280 samples) every beat offset in the melody, bass,
kick/snare and hi-hat lists yields an exact integer product, so there the
truncated offset coincides with `round(beat_offset × 44100 × 60 / bpm)`;
in particular `beat_offset = 1` is placed at sample 35280. -/
theorem claim_C2_track01_placement :
    (∀ e ∈ melody01, noteStart beat01 e.1 = round (e.1 * beat01)) ∧
    (∀ e ∈ bass01, noteStart beat01 e.1 = round (e.1 * beat01)) ∧
    (∀ k : ℕ, k < drumBeats01 →
      pyInt ((k : ℚ) * beat01) = round ((k : ℚ) * beat01)) ∧
    (∀ k : ℕ, k < hihatBeats01 →
      hihatStart01 k = round ((k : ℚ) * beat01 / 2)) ∧
    noteStart beat01 1 = 35280 := by
  have hdb : drumBeats01 = 15 := by
    rw [drumBeats01]
    exact pyNat_eq _ _ (by norm_num [bpm01]) (by norm_num [bpm01])
  have hhb : hihatBeats01 = 30 := by
    rw [hihatBeats01]
    exact pyNat_eq _ _ (by norm_num [bpm01]) (by norm_num [bpm01])
  refine ⟨?_, ?_, ?_, ?_, ?_⟩
  · intro e he
    fin_cases he <;>
      norm_num [noteStart, pyInt, beat01, bpm01, SAMPLE_RATE, round_eq]
  · intro e he
    fin_cases he <;>
      norm_num [noteStart, pyInt, beat01, bpm01, SAMPLE_RATE, round_eq]
  · intro k hk
    rw [hdb] at hk
    interval_cases k <;>
      norm_num [pyInt, beat01, bpm01, SAMPLE_RATE, round_eq]
  · intro k hk
    rw [hhb] at hk
    interval_cases k <;>
      norm_num [hihatStart01, pyInt, beat01, bpm01, SAMPLE_RATE, round_eq]
  · norm_num [noteStart, pyInt, beat01, bpm01, SAMPLE_RATE]

/-- C2, witness: the amended placement rule applied to the melody event of
`gen_lofi_track_01` at `beat_offset = 1.5`. -/
theorem claim_C2_witness :
    noteStart beat01 (3/2) = round ((3/2 : ℚ) * beat01) :=
  claim_C2_track01_placement.1 ((3/2 : ℚ), (67 : ℤ), (1/2 : ℚ), (1/2 : ℚ))
    (by norm_num [melody01])

/-- C3, counterexample: `mix()` with zero input buffers evaluates
`max()` over an empty generator and raises `ValueError` (`none` in the
embedding); it does not return an empty buffer. -/
theorem claim_C3_counterexample : mix [] none = none := rfl

/-- C3 (amended): `mix` raises on zero input buffers; for one or more
buffers it returns a buffer whose length is the maximum input length, and
an omitted weight list defaults to uniform weights `1 / len(buffers)`. -/
theorem claim_C3_mix_behavior :
    mix [] none = none ∧
    (∀ (ls : List (List ℚ)) (w : Option (List ℚ)), ls ≠ [] →
      ∃ r, mix ls w = some r ∧
        (∀ l ∈ ls, l.length ≤ r.length) ∧ (∃ l ∈ ls, r.length = l.length)) ∧
    (∀ ls : List (List ℚ),
      mix ls none =
        mix ls (some (List.replicate ls.length ((1 : ℚ) / (ls.length : ℚ))))) :=
  ⟨rfl, fun ls w h => mix_spec ls w h, fun ls => mix_default_weights ls⟩

/-- C3, witness: mixing two buffers of lengths 2 and 1 with default
weights. -/
theorem claim_C3_witness :
    ∃ r, mix [[1, 2], [3]] none = some r ∧
      (∀ l ∈ [[(1 : ℚ), 2], [3]], l.length ≤ r.length) ∧
      (∃ l ∈ [[(1 : ℚ), 2], [3]], r.length = l.length) :=
  claim_C3_mix_behavior.2.1 [[1, 2], [3]] none (by simp)

/-- C4, counterexample: the buffer `[1e-10]` has nonzero maximum absolute
value, yet `normalize` returns it unchanged (its max-abs is below the 1e-9
guard), so the output peak is not within 1e-6 of the requested
`peak = 0.85`. -/
theorem claim_C4_counterexample :
    maxAbs [(1 : ℚ)/10000000000] = some ((1 : ℚ)/10000000000) ∧
    ((1 : ℚ)/10000000000) ≠ 0 ∧
    normalize [(1 : ℚ)/10000000000] (85/100) = some [(1 : ℚ)/10000000000] ∧
    ¬|((1 : ℚ)/10000000000) - 85/100| ≤ 1/1000000 := by
  have habs : |(1 : ℚ)/10000000000| = (1 : ℚ)/10000000000 :=
    abs_of_nonneg (by norm_num)
  refine ⟨?_, by norm_num, ?_, ?_⟩
  · simp only [maxAbs, List.foldl_nil]
    rw [habs]
  · simp only [normalize, maxAbs, List.foldl_nil, habs, Option.map_some']
    rw [if_pos (by norm_num)]
  · rw [abs_of_nonpos (by norm_num)]
    norm_num

/-- C4 (amended): for a buffer whose maximum absolute value is at least the
1e-9 guard, `normalize(buffer, peak=P)` (with `P > 0`) returns a buffer
whose maximum absolute value equals `P` exactly (in exact arithmetic);
for any buffer below the guard — including but not only the all-zero
buffer — it returns the buffer unchanged. -/
theorem claim_C4_normalize_law (l : List ℚ) (p m : ℚ)
    (hm : maxAbs l = some m) (hp : 0 < p) :
    (1/1000000000 ≤ m →
      ∃ res, normalize l p = some res ∧ maxAbs res = some p) ∧
    (m < 1/1000000000 → normalize l p = some l) :=
  ⟨(normalize_spec l p m hm hp).2, (normalize_spec l p m hm hp).1⟩

/-- C4, witness: normalizing `[1/2]` to peak `0.85`. -/
theorem claim_C4_witness :
    ∃ res, normalize [(1 : ℚ)/2] (85/100) = some res ∧
      maxAbs res = some (85/100) :=
  (claim_C4_normalize_law [(1 : ℚ)/2] (85/100) (1/2)
    (by simp only [maxAbs, List.foldl_nil]; rw [abs_of_nonneg]; norm_num)
    (by norm_num)).1 (by norm_num)

theorem getD_replicate_zero (n k : ℕ) :
    (List.replicate n (0 : ℚ)).getD k 0 = 0 := by
  rcases lt_or_le k n with h | h
  · simp [List.getD_eq_getElem?_getD, List.getElem?_replicate, h]
  · rw [List.getD_eq_default]
    simpa using h

/-- C5: `overlay_samples(base, overlay, start, amp)` keeps the base length
(samples past the end are discarded), adds `amp·overlay[i−start]` to
`base[i]` exactly on the window `start ≤ i < min(len(base),
start+len(overlay))`, leaves every other sample unchanged, and consequently
overlaying two one-sample unit-amplitude events at the same offset of a
silent buffer yields exactly 2 there. -/
theorem claim_C5_overlay_spec (base overlay : List ℚ) (start : ℕ) (amp : ℚ) :
    (overlay_samples base overlay start amp).length = base.length ∧
    (∀ i : ℕ, start ≤ i → i < min base.length (start + overlay.length) →
      (overlay_samples base overlay start amp).getD i 0 =
        base.getD i 0 + amp * overlay.getD (i - start) 0) ∧
    (∀ i : ℕ, i < base.length → (i < start ∨ start + overlay.length ≤ i) →
      (overlay_samples base overlay start amp).getD i 0 = base.getD i 0) ∧
    (∀ k n : ℕ, k < n →
      (overlay_samples (overlay_samples (List.replicate n 0) [1] k 1)
        [1] k 1).getD k 0 = 2) := by
  refine ⟨(overlayGo_spec amp overlay base start).1, ?_, ?_, ?_⟩
  · intro i h1 h2
    rw [overlay_samples, (overlayGo_spec amp overlay base start).2 i,
      if_pos ⟨h1, by omega, by omega⟩, mul_comm]
  · intro i h1 h2
    rw [overlay_samples, (overlayGo_spec amp overlay base start).2 i,
      if_neg (by omega)]
  · intro k n hkn
    have hrep : (List.replicate n (0 : ℚ)).length = n := List.length_replicate n 0
    have h1 := (overlayGo_spec 1 [1] (List.replicate n (0 : ℚ)) k).2 k
    rw [if_pos (by simp; omega)] at h1
    have hval1 : (overlay_samples (List.replicate n (0 : ℚ)) [1] k 1).getD k 0 = 1 := by
      rw [overlay_samples, h1, getD_replicate_zero]
      simp
    have hlen1 : (overlay_samples (List.replicate n (0 : ℚ)) [1] k 1).length = n := by
      rw [overlay_samples, (overlayGo_spec 1 [1] (List.replicate n (0 : ℚ)) k).1, hrep]
    have h2 := (overlayGo_spec 1 [1]
      (overlay_samples (List.replicate n (0 : ℚ)) [1] k 1) k).2 k
    rw [if_pos (by simp [hlen1]; omega)] at h2
    rw [overlay_samples, h2, hval1]
    norm_num

/-- C5, witness: two overlaid unit events at offset 1 of a 3-sample silent
buffer sum to exactly 2. -/
theorem claim_C5_witness :
    (overlay_samples (overlay_samples (List.replicate 3 (0 : ℚ)) [1] 1 1)
      [1] 1 1).getD 1 0 = 2 :=
  (claim_C5_overlay_spec [] [] 0 1).2.2.2 1 3 (by omega)

/-- C6: the wrap loop of `gen_coin_collect` rebinds only its loop variable
(`for p in [phase1, phase2, phase3]: p -= 2π`, marked `# noqa`), so the
phase accumulators are never reduced: already at sample index 35 (well
inside the `int(0.35 × 44100) = 15435`-sample generation) the first phase
accumulator exceeds `2π + 2π·1318.5/44100`, contradicting the claimed
bound. -/
theorem claim_C6_coin_phase_unbounded :
    35 ≤ pyNat ((35/100) * SAMPLE_RATE) ∧
    (coinPhases 35).1 > 2 * piFloat + 2 * piFloat * (26370/20) / SAMPLE_RATE := by
  constructor
  · rw [pyNat_eq _ 15435 (by norm_num [SAMPLE_RATE]) (by norm_num [SAMPLE_RATE])]
    omega
  · rw [coinPhases_fst]
    norm_num [piFloat, SAMPLE_RATE]

/-- C7: in exact real arithmetic the wrapped oscillator loops are
sample-for-sample equal to the unwrapped reference loops: the wrap in
`sine_wave_varying` subtracts exactly `2π` and the wrap in
`gen_biplane_engine`'s oscillator subtracts exactly `6π = 3·2π`, and
`sin(k(φ − 2πm)) = sin(kφ)` for every harmonic index used. -/
theorem claim_C7_phase_wrap_equiv :
    (∀ (freq_fn : ℝ → ℝ) (n : ℕ) (amp : ℝ),
      sine_wave_varying freq_fn n amp = sine_wave_varying_nowrap freq_fn n amp) ∧
    (∀ (rng : ℕ → ℝ) (n : ℕ),
      biplaneOscRGo rng n 0 0 = biplaneOscRNowrapGo rng n 0 0) := by
  constructor
  · intro f n amp
    have h := svvGo_shift f amp n 0 0 0
    simpa [sine_wave_varying, sine_wave_varying_nowrap] using h
  · intro rng n
    have h := biplaneOscRGo_shift rng n 0 0 0
    simpa using h

/-- C8: `white_noise(n_samples, seed)` is a pure function of its arguments:
two runs in processes with arbitrary different ambient state (clock,
OS entropy) produce identical buffers, element for element; the only
randomness consulted is the seeded Mersenne-Twister stream. -/
theorem claim_C8_white_noise_deterministic :
    ∀ (rt₁ rt₂ : Runtime) (mt : ℤ → ℕ → ℚ) (n : ℕ) (seed : ℤ),
      white_noise_run rt₁ mt n seed = white_noise_run rt₂ mt n seed ∧
      ∀ i : ℕ, (white_noise_run rt₁ mt n seed).getD i 0 =
        (white_noise_run rt₂ mt n seed).getD i 0 :=
  fun _ _ _ _ _ => ⟨rfl, fun _ => rfl⟩

/-- C9: for a buffer of length at least `attack_samples + release_samples`
(each at least 1), `apply_envelope` scales the first `attack_samples`
samples by `i/attack_samples`, the last `release_samples` samples by
`(release_samples − i)/release_samples`, leaves the rest unchanged, makes
the first output sample exactly 0, and scales the last sample by
`1/release_samples`. -/
theorem claim_C9_envelope_boundary (samples : List ℚ) (attack release : ℚ)
    (ha : 1 ≤ pyNat (attack * SAMPLE_RATE))
    (hrel : 1 ≤ pyNat (release * SAMPLE_RATE))
    (hn : pyNat (attack * SAMPLE_RATE) + pyNat (release * SAMPLE_RATE) ≤
      samples.length) :
    ∃ res, apply_envelope samples attack release = some res ∧
      res.length = samples.length ∧
      (∀ i : ℕ, i < pyNat (attack * SAMPLE_RATE) →
        res.getD i 0 = samples.getD i 0 *
          ((i : ℚ) / (pyNat (attack * SAMPLE_RATE) : ℚ))) ∧
      (∀ i : ℕ, samples.length - pyNat (release * SAMPLE_RATE) ≤ i →
        i < samples.length →
        res.getD i 0 = samples.getD i 0 *
          (((pyNat (release * SAMPLE_RATE) : ℚ) -
            ((i - (samples.length - pyNat (release * SAMPLE_RATE)) : ℕ) : ℚ)) /
            (pyNat (release * SAMPLE_RATE) : ℚ))) ∧
      (∀ i : ℕ, pyNat (attack * SAMPLE_RATE) ≤ i →
        i < samples.length - pyNat (release * SAMPLE_RATE) →
        res.getD i 0 = samples.getD i 0) ∧
      res.getD 0 0 = 0 ∧
      res.getD (samples.length - 1) 0 = samples.getD (samples.length - 1) 0 *
        (1 / (pyNat (release * SAMPLE_RATE) : ℚ)) :=
  apply_envelope_spec samples attack release ha hrel hn

/-- C9, witness: a two-sample buffer with one-sample attack and release:
the first output sample is 0 and the last is the last input scaled by
`1/release_samples = 1`. -/
theorem claim_C9_witness :
    ∃ res, apply_envelope [(3 : ℚ), 5] (1/44100) (1/44100) = some res ∧
      res.getD 0 0 = 0 ∧
      res.getD 1 0 = 5 * (1 / (pyNat ((1/44100 : ℚ) * SAMPLE_RATE) : ℚ)) := by
  have h1 : pyNat ((1/44100 : ℚ) * SAMPLE_RATE) = 1 :=
    pyNat_eq _ _ (by norm_num [SAMPLE_RATE]) (by norm_num [SAMPLE_RATE])
  obtain ⟨res, e1, e2, e3, e4, e5, e6, e7⟩ :=
    claim_C9_envelope_boundary [(3 : ℚ), 5] (1/44100) (1/44100)
      (by omega) (by omega) (by rw [h1]; norm_num)
  refine ⟨res, e1, e6, ?_⟩
  simpa using e7

/-- C10: `note_to_freq` sends MIDI note 69 to exactly 440 Hz, doubles over
every octave (`note_to_freq(n + 12) = 2·note_to_freq(n)`), and is strictly
increasing. -/
theorem claim_C10_note_to_freq_law :
    note_to_freq 69 = 440 ∧
    (∀ n : ℤ, note_to_freq (n + 12) = 2 * note_to_freq n) ∧
    (∀ a b : ℤ, a < b → note_to_freq a < note_to_freq b) := by
  refine ⟨?_, ?_, ?_⟩
  · norm_num [note_to_freq]
  · intro n
    have hexp : (((n + 12 : ℤ) : ℝ) - 69) / 12 = ((n : ℝ) - 69) / 12 + 1 := by
      push_cast; ring
    rw [note_to_freq, note_to_freq, hexp,
      Real.rpow_add (by norm_num : (0 : ℝ) < 2), Real.rpow_one]
    ring
  · intro a b hab
    rw [note_to_freq, note_to_freq]
    apply mul_lt_mul_of_pos_left _ (by norm_num : (0 : ℝ) < 440)
    apply (Real.rpow_lt_rpow_left_iff one_lt_two).mpr
    have h : (a : ℝ) < (b : ℝ) := Int.cast_lt.mpr hab
    linarith

/-- C10, witness: strict monotonicity applied at notes 0 < 12. -/
theorem claim_C10_witness : note_to_freq 0 < note_to_freq 12 :=
  claim_C10_note_to_freq_law.2.2 0 12 (by omega)

end FlitAudio
